import Mathlib

/-!
Verification of the split-ordered-list hash set facade
`cds::container::SplitListSet< cds::urcu::gc<RCU>, T, Traits >`
(src/cds/container/split_list_set_rcu.h) against its specification.

The header under src/ contains only the non-intrusive facade: node
allocation (`alloc_node` / `free_node`), `insert_node`, and the public
operations `insert`, `emplace`, `ensure`, `erase`, `find`, `get`,
`extract`, `size`, which all delegate to the intrusive base class
`intrusive::SplitListSet` obtained through `details::make_split_list_set`.
The intrusive layer (key transform, bucket table, ordered-list engine,
item counter, allocator) is not part of src/, so it is modelled from the
specification; every such definition carries a doc comment starting with
"Modelled from the spec:".  The facade functions themselves are
translated directly from the header.

The stored value type is instantiated with a concrete record `Val`
(a key field used by the hash and the comparator, plus a mutable data
field), mirroring the `foo {nKey; strValue}` configuration shown in the
header's own usage documentation.  Machine integers are modelled as
`Nat`; the split-order key transform is parametric in the word width.
-/

/-! ### Key transform (spec §4.1) -/

/-- Modelled from the spec: reversal of the low `w` bits of a machine
word.  Bit `0` of `n` becomes bit `w-1` of the result, and so on; bits
of `n` at position `w` and above are discarded. -/
def reverseBits : Nat → Nat → Nat
  | 0, _ => 0
  | w + 1, n => n % 2 * 2 ^ w + reverseBits w (n / 2)

/-- Modelled from the spec: "set bit 0" of a machine word. -/
def setBit0 (n : Nat) : Nat := if n % 2 = 0 then n + 1 else n

/-- Modelled from the spec: `regular_key(hash)` — reverse the bit
pattern of `hash` (word width `w`), then set bit 0. -/
def regular_key (w h : Nat) : Nat := setBit0 (reverseBits w h)

/-- Modelled from the spec: `sentinel_key(bucket_index)` — reverse the
bit pattern of the bucket index at word width `w`; bit 0 is left 0. -/
def sentinel_key (w i : Nat) : Nat := reverseBits w i

/-- Modelled from the spec: `bucket_for(hash)` — `hash mod capacity`,
where the capacity is a power of two. -/
def bucket_for (h cap : Nat) : Nat := h % cap

/-- Modelled from the spec: the engine's ordering compares the
split-order key first and breaks ties with the user comparator on the
user keys. -/
def soCmp (sk1 k1 sk2 k2 : Nat) : Ordering :=
  match compare sk1 sk2 with
  | Ordering.eq => compare k1 k2
  | o => o

theorem reverseBits_zero (w : Nat) : reverseBits w 0 = 0 := by
  induction w with
  | zero => rfl
  | succ w ih => simp [reverseBits, ih]

theorem setBit0_odd (n : Nat) : setBit0 n % 2 = 1 := by
  unfold setBit0; split <;> omega

theorem le_setBit0 (n : Nat) : n ≤ setBit0 n := by
  unfold setBit0; split <;> omega

/-- Splitting lemma for bit reversal: if the low `k` bits of the input
are `i` and the remaining bits are `q`, the reversal places the
reversal of `i` in the top `k` bits and the reversal of `q` below it. -/
theorem reverseBits_split (k : Nat) :
    ∀ w i q, k ≤ w → i < 2 ^ k →
      reverseBits w (i + 2 ^ k * q) =
        reverseBits k i * 2 ^ (w - k) + reverseBits (w - k) q := by
  induction k with
  | zero =>
    intro w i q _ hi
    have hi0 : i = 0 := by omega
    subst hi0
    simp [reverseBits]
  | succ k ih =>
    intro w i q hkw hi
    obtain ⟨w', rfl⟩ : ∃ w', w = w' + 1 := ⟨w - 1, by omega⟩
    have hpow : (2 : Nat) ^ (k + 1) = 2 * 2 ^ k := by ring
    have harg : i + 2 ^ (k + 1) * q = i + 2 * (2 ^ k * q) := by rw [hpow]; ring
    have hmod : (i + 2 * (2 ^ k * q)) % 2 = i % 2 := by omega
    have hdiv : (i + 2 * (2 ^ k * q)) / 2 = i / 2 + 2 ^ k * q := by omega
    have hik : i / 2 < 2 ^ k := Nat.div_lt_of_lt_mul (by omega)
    calc reverseBits (w' + 1) (i + 2 ^ (k + 1) * q)
        = (i + 2 * (2 ^ k * q)) % 2 * 2 ^ w'
            + reverseBits w' ((i + 2 * (2 ^ k * q)) / 2) := by rw [harg]; rfl
      _ = i % 2 * 2 ^ w' + reverseBits w' (i / 2 + 2 ^ k * q) := by rw [hmod, hdiv]
      _ = i % 2 * 2 ^ w'
            + (reverseBits k (i / 2) * 2 ^ (w' - k) + reverseBits (w' - k) q) := by
            rw [ih w' (i / 2) q (by omega) hik]
      _ = (i % 2 * 2 ^ k + reverseBits k (i / 2)) * 2 ^ (w' - k)
            + reverseBits (w' - k) q := by
            have hp : (2 : Nat) ^ k * 2 ^ (w' - k) = 2 ^ w' := by
              rw [← pow_add]; congr 1; omega
            rw [Nat.add_mul, Nat.mul_assoc, hp]
            omega
      _ = reverseBits (k + 1) i * 2 ^ (w' + 1 - (k + 1))
            + reverseBits (w' + 1 - (k + 1)) q := by
            have hw : w' + 1 - (k + 1) = w' - k := by omega
            rw [hw]
            simp [reverseBits]

theorem sentinel_key_le_reverse (w k i h : Nat) (hkw : k ≤ w) (hik : i < 2 ^ k)
    (hmap : h % 2 ^ k = i) : sentinel_key w i ≤ reverseBits w h := by
  have hh : h = i + 2 ^ k * (h / 2 ^ k) := by
    conv_lhs => rw [← Nat.div_add_mod h (2 ^ k)]
    omega
  have h1 : reverseBits w h
      = reverseBits k i * 2 ^ (w - k) + reverseBits (w - k) (h / 2 ^ k) := by
    conv_lhs => rw [hh]
    exact reverseBits_split k w i (h / 2 ^ k) hkw hik
  have h2 : sentinel_key w i = reverseBits k i * 2 ^ (w - k) := by
    unfold sentinel_key
    have hsp := reverseBits_split k w i 0 hkw hik
    simpa [reverseBits_zero] using hsp
  omega

/-! ### The split-list set model -/

namespace SplitListModel

/-- Stored value type: instantiates the template parameter `T` with the
shape of the `foo {nKey; strValue}` record from the header's own usage
documentation — `key` is the field the hash functor and the comparator
look at, `data` is the mutable payload. -/
structure Val where
  key : Nat
  data : Nat
  deriving DecidableEq, Repr

/-- Modelled from the spec: the machine word width (`size_t`). -/
def wordBits : Nat := 64

/-- The configured hash functor: hashes a value through its key field
(mirrors the `foo_hash` functor of the header documentation). -/
def hashVal (v : Val) : Nat := v.key

/-- The split-order key of a regular node holding value `v`. -/
def splitKey (v : Val) : Nat := regular_key wordBits (hashVal v)

/-- The split-order key used to search for the bare user key `k` (the
hash functor applied to `k`, then `regular_key`). -/
def searchKey (k : Nat) : Nat := regular_key wordBits k

/-- Modelled from the spec: ordered-list engine `find` — ordered
traversal stopping at the first node at which the probe compares `lt`;
reports the node at which the probe compares `eq`, if reached. -/
def listFindNode : List Val → Nat → Nat → Option Val
  | [], _, _ => none
  | x :: xs, sk, k =>
    match soCmp sk k (splitKey x) x.key with
    | Ordering.lt => none
    | Ordering.eq => some x
    | Ordering.gt => listFindNode xs sk k

/-- Modelled from the spec: engine `insert_if_absent` — links the node
at the correct sorted position iff no node with equal split-order key
and user key exists; otherwise the structure is unchanged and the
caller retains ownership of the node (`none`). -/
def listInsertIfAbsent : List Val → Val → Option (List Val)
  | [], v => some [v]
  | x :: xs, v =>
    match soCmp (splitKey v) v.key (splitKey x) x.key with
    | Ordering.lt => some (v :: x :: xs)
    | Ordering.eq => none
    | Ordering.gt => (listInsertIfAbsent xs v).map (fun l => x :: l)

/-- Modelled from the spec: engine `unlink` applied to the node located
by an ordered search — removes the first node at which the probe
compares `eq` and returns it together with the remaining list. -/
def listUnlink : List Val → Nat → Nat → Option (Val × List Val)
  | [], _, _ => none
  | x :: xs, sk, k =>
    match soCmp sk k (splitKey x) x.key with
    | Ordering.lt => none
    | Ordering.eq => some (x, xs)
    | Ordering.gt => (listUnlink xs sk k).map (fun p => (p.1, x :: p.2))

/-- Modelled from the spec: the traversal of the intrusive `ensure` —
when a node with equal key exists, the functor mutates its payload in
place (`isNew = false`) and the node found is reported; otherwise the
candidate is linked at the correct sorted position and the functor
initialises its payload (`isNew = true`).  Returns the node found (if
any) together with the updated list. -/
def listEnsure (f : Bool → Nat → Nat) (v : Val) : List Val → Option Val × List Val
  | [] => (none, [⟨v.key, f true v.data⟩])
  | x :: xs =>
    match soCmp (splitKey v) v.key (splitKey x) x.key with
    | Ordering.lt => (none, ⟨v.key, f true v.data⟩ :: x :: xs)
    | Ordering.eq => (some x, ⟨x.key, f false x.data⟩ :: xs)
    | Ordering.gt =>
      let r := listEnsure f v xs
      (r.1, x :: r.2)

/-- Observable side effects of a facade operation: user-functor
invocations, nodes handed to `free_node`, and RCU synchronisation
points. -/
inductive Effect : Type
  | fnCall (isNew : Bool) (item : Val)
  | freeNode (node : Val)
  | rcuSync
  deriving DecidableEq, Repr

/-- Modelled from the spec: the state of the intrusive base class that
the facade observes — the regular nodes of the single ordered list,
plus the item counter.  Sentinel nodes carry no user value and have
even split-order keys, so they never compare equal to a regular node
(whose split-order key is odd); they and the bucket table affect only
the traversal entry point, never membership, and are omitted. -/
structure SplitListState where
  items : List Val
  counter : Nat
  deriving DecidableEq, Repr

/-- Modelled from the spec: `intrusive::SplitListSet::insert` —
insert-if-absent keyed by the node's split-order key; on success the
item counter is incremented. -/
def base_insert (s : SplitListState) (n : Val) : Bool × SplitListState :=
  match listInsertIfAbsent s.items n with
  | none => (false, s)
  | some l => (true, ⟨l, s.counter + 1⟩)

/-- Modelled from the spec: `intrusive::SplitListSet::find(key)` under
the internally taken RCU read lock. -/
def base_find (s : SplitListState) (k : Nat) : Bool :=
  (listFindNode s.items (searchKey k) k).isSome

/-- Modelled from the spec: `intrusive::SplitListSet::get(key)` —
returns the node found, or nothing. -/
def base_get (s : SplitListState) (k : Nat) : Option Val :=
  listFindNode s.items (searchKey k) k

/-- Modelled from the spec: `intrusive::SplitListSet::erase(key)` —
unlinks the node with key `k`, decrements the item counter and retires
the node to the reclamation bridge (deferred `free_node` after RCU
synchronisation). -/
def base_erase (s : SplitListState) (k : Nat) :
    Bool × SplitListState × List Effect :=
  match listUnlink s.items (searchKey k) k with
  | none => (false, s, [])
  | some (x, l) =>
    (true, ⟨l, s.counter - 1⟩, [Effect.rcuSync, Effect.freeNode x])

/-- Modelled from the spec: `intrusive::SplitListSet::extract_` —
unlinks the node with key `k` and returns it without disposing of it
and without any RCU synchronisation; the item counter is
decremented. -/
def base_extract (s : SplitListState) (k : Nat) :
    Option Val × SplitListState :=
  match listUnlink s.items (searchKey k) k with
  | none => (none, s)
  | some (x, l) => (some x, ⟨l, s.counter - 1⟩)

/-- Modelled from the spec: `intrusive::SplitListSet::ensure` — returns
`(success, isNew)`; on a new insertion the counter is incremented; the
functor runs exactly once, with `isNew = true` on the freshly linked
candidate or `isNew = false` on the node already present. -/
def base_ensure (s : SplitListState) (v : Val) (f : Bool → Nat → Nat) :
    (Bool × Bool) × SplitListState × List Effect :=
  match (listEnsure f v s.items).1 with
  | none =>
    ((true, true), ⟨(listEnsure f v s.items).2, s.counter + 1⟩,
      [Effect.fnCall true v])
  | some x =>
    ((true, false), ⟨(listEnsure f v s.items).2, s.counter⟩,
      [Effect.fnCall false x])

end SplitListModel

namespace SplitListModel

/-- Modelled from the spec: `cxx_node_allocator().New(v)` used by
`alloc_node(Q const&)` (header lines 220–224) — builds a node holding a
copy of `v`, or fails with resource exhaustion; the possibility of
failure is the Boolean oracle `alloc`. -/
def alloc_node (alloc : Bool) (v : Val) : Option Val :=
  if alloc then some v else none

/-- Modelled from the spec: `cxx_node_allocator().MoveNew(args...)`
used by the variadic `alloc_node(Args&&...)` (header lines 226–230) —
builds a node holding the value constructed from the arguments, or
fails with resource exhaustion. -/
def alloc_node_move (alloc : Bool) (v : Val) : Option Val :=
  if alloc then some v else none

/-- Result of a facade operation: return value, resulting state, and
the observable effects the call performed. -/
structure OpResult (α : Type) where
  res : α
  state : SplitListState
  effects : List Effect
  deriving DecidableEq, Repr

/-- `SplitListSet::insert_node` (header lines 245–256): wrap the node
in a `scoped_node_ptr`, try the intrusive insert, release the pointer
on success; on failure the scoped pointer frees the node. -/
def insert_node (s : SplitListState) (pNode : Val) : OpResult Bool :=
  let r := base_insert s pNode
  if r.1 then ⟨true, r.2, []⟩
  else ⟨false, r.2, [Effect.freeNode pNode]⟩

/-- `SplitListSet::insert(Q const& val)` (header lines 424–428):
`insert_node(alloc_node(val))`; an allocation failure surfaces to the
caller with nothing allocated and nothing mutated. -/
def insert (alloc : Bool) (s : SplitListState) (v : Val) : OpResult Bool :=
  match alloc_node alloc v with
  | none => ⟨false, s, []⟩
  | some n => insert_node s n

/-- `SplitListSet::emplace(Args&&... args)` (header lines 465–469):
`insert_node(alloc_node(std::forward<Args>(args)...))`. -/
def emplace (alloc : Bool) (s : SplitListState) (v : Val) : OpResult Bool :=
  match alloc_node_move alloc v with
  | none => ⟨false, s, []⟩
  | some n => insert_node s n

/-- `SplitListSet::ensure(Q const&, Func)` (header lines 498–510):
allocate a candidate node held by a `scoped_node_ptr`, run the
intrusive ensure with the wrapped functor, and release the candidate
only when it was actually linked (`bRet.first && bRet.second`);
otherwise the scoped pointer frees it when the call returns. -/
def ensure (alloc : Bool) (s : SplitListState) (v : Val)
    (f : Bool → Nat → Nat) : OpResult (Bool × Bool) :=
  match alloc_node alloc v with
  | none => ⟨(false, false), s, []⟩
  | some n =>
    let r := base_ensure s n f
    if r.1.1 && r.1.2 then ⟨r.1, r.2.1, r.2.2⟩
    else ⟨r.1, r.2.1, r.2.2 ++ [Effect.freeNode n]⟩

/-- `SplitListSet::erase(Q const&)` (header lines 523–527): delegates
to the intrusive erase. -/
def erase (s : SplitListState) (k : Nat) : OpResult Bool :=
  let r := base_erase s k
  ⟨r.1, r.2.1, r.2.2⟩

/-- `SplitListSet::find(Q const&)` (header lines 694–698): delegates to
the intrusive find (which applies the RCU lock internally). -/
def find (s : SplitListState) (k : Nat) : Bool :=
  base_find s k

/-- `SplitListSet::get(Q const&)` (header lines 741–746): delegates to
the intrusive get; returns the address of the `m_Value` field of the
node found, or `nullptr` — modelled as the value held, or `none`. -/
def get (s : SplitListState) (k : Nat) : Option Val :=
  match base_get s k with
  | none => none
  | some pNode => some pNode

/-- `SplitListSet::extract(Q const&)` (header lines 621–625): wraps the
intrusive `extract_` in an `exempt_ptr`; no RCU synchronisation and no
disposal happen here. -/
def extract (s : SplitListState) (k : Nat) : OpResult (Option Val) :=
  let r := base_extract s k
  ⟨r.1, r.2, []⟩

/-- `SplitListSet::size()` (header lines 781–784): reads the item
counter. -/
def size (s : SplitListState) : Nat := s.counter

/-- `SplitListSet::SplitListSet()` (header lines 352–354): a freshly
constructed set — empty list, zero counter. -/
def initState : SplitListState := ⟨[], 0⟩

/-- A step of a sequential history: a facade insert or a facade erase. -/
inductive SetOp : Type
  | insOp (v : Val)
  | delOp (k : Nat)
  deriving DecidableEq, Repr

/-- Run a sequential history of facade inserts and erases, collecting
each call's Boolean result. -/
def runOps : SplitListState → List SetOp → SplitListState × List Bool
  | s, [] => (s, [])
  | s, o :: os =>
    let r : Bool × SplitListState :=
      match o with
      | SetOp.insOp v => ((insert true s v).res, (insert true s v).state)
      | SetOp.delOp k => ((erase s k).res, (erase s k).state)
    let rest := runOps r.2 os
    (rest.1, r.1 :: rest.2)

/-- Number of inserts in a history. -/
def countIns : List SetOp → Nat
  | [] => 0
  | SetOp.insOp _ :: os => countIns os + 1
  | SetOp.delOp _ :: os => countIns os

/-- Number of erases in a history. -/
def countDel : List SetOp → Nat
  | [] => 0
  | SetOp.insOp _ :: os => countDel os
  | SetOp.delOp _ :: os => countDel os + 1

/-- Repeatedly insert values into the set, collecting each call's
result and effects. -/
def insertSeq : SplitListState → List Val → SplitListState × List (Bool × List Effect)
  | s, [] => (s, [])
  | s, v :: vs =>
    let r := insert true s v
    let rest := insertSeq r.state vs
    (rest.1, (r.res, r.effects) :: rest.2)

/-- Split-order sortedness of the engine's list: nodes appear in
strictly increasing order of (split-order key, user key). -/
def SortedSO (l : List Val) : Prop :=
  l.Pairwise (fun a b => soCmp (splitKey a) a.key (splitKey b) b.key = Ordering.lt)

instance : DecidablePred SortedSO := fun l =>
  List.instDecidablePairwise l

end SplitListModel

theorem soCmp_eq_iff (sk1 k1 sk2 k2 : Nat) :
    soCmp sk1 k1 sk2 k2 = Ordering.eq ↔ sk1 = sk2 ∧ k1 = k2 := by
  unfold soCmp
  cases h : compare sk1 sk2 with
  | lt => rw [compare_lt_iff_lt] at h; simp; omega
  | eq => rw [compare_eq_iff_eq] at h; simp [compare_eq_iff_eq, h]
  | gt => rw [compare_gt_iff_gt] at h; simp; omega

theorem soCmp_lt_iff (sk1 k1 sk2 k2 : Nat) :
    soCmp sk1 k1 sk2 k2 = Ordering.lt ↔ sk1 < sk2 ∨ (sk1 = sk2 ∧ k1 < k2) := by
  unfold soCmp
  cases h : compare sk1 sk2 with
  | lt => rw [compare_lt_iff_lt] at h; simp; omega
  | eq => rw [compare_eq_iff_eq] at h; rw [compare_lt_iff_lt]; omega
  | gt => rw [compare_gt_iff_gt] at h; simp; omega

theorem soCmp_self (sk k : Nat) : soCmp sk k sk k = Ordering.eq := by
  rw [soCmp_eq_iff]; exact ⟨rfl, rfl⟩

namespace SplitListModel

theorem searchKey_key (v : Val) : searchKey v.key = splitKey v := rfl

theorem splitKey_eq_of_key (v x : Val) (h : v.key = x.key) :
    splitKey v = splitKey x := by
  unfold splitKey hashVal; rw [h]

/-- A probe for user key `k` compares `eq` with a node exactly when the
node's user key is `k` (the split-order key is derived from the key, so
it matches automatically). -/
theorem soCmp_probe_eq_iff (k : Nat) (x : Val) :
    soCmp (searchKey k) k (splitKey x) x.key = Ordering.eq ↔ k = x.key := by
  rw [soCmp_eq_iff]
  constructor
  · rintro ⟨_, h⟩; exact h
  · intro h
    refine ⟨?_, h⟩
    unfold searchKey splitKey hashVal
    rw [h]

theorem listInsertIfAbsent_none_iff (l : List Val) (v : Val) :
    listInsertIfAbsent l v = none
      ↔ (listFindNode l (splitKey v) v.key).isSome = true := by
  induction l with
  | nil => simp [listInsertIfAbsent, listFindNode]
  | cons x xs ih =>
    rw [listInsertIfAbsent, listFindNode]
    cases h : soCmp (splitKey v) v.key (splitKey x) x.key <;>
      simp [ih, Option.map_eq_none']

theorem listInsertIfAbsent_find_self (l : List Val) (v : Val) (l2 : List Val)
    (h : listInsertIfAbsent l v = some l2) :
    listFindNode l2 (splitKey v) v.key = some v := by
  induction l generalizing l2 with
  | nil =>
    rw [listInsertIfAbsent] at h
    cases h
    rw [listFindNode, soCmp_self]
  | cons x xs ih =>
    rw [listInsertIfAbsent] at h
    cases hc : soCmp (splitKey v) v.key (splitKey x) x.key <;> rw [hc] at h
    · cases h
      rw [listFindNode, soCmp_self]
    · cases h
    · cases hrec : listInsertIfAbsent xs v with
      | none => rw [hrec] at h; cases h
      | some l3 =>
        rw [hrec] at h
        cases h
        rw [listFindNode, hc]
        exact ih l3 hrec

theorem listInsertIfAbsent_unlink_self (l : List Val) (v : Val) (l2 : List Val)
    (h : listInsertIfAbsent l v = some l2) :
    listUnlink l2 (splitKey v) v.key = some (v, l) := by
  induction l generalizing l2 with
  | nil =>
    rw [listInsertIfAbsent] at h
    cases h
    rw [listUnlink, soCmp_self]
  | cons x xs ih =>
    rw [listInsertIfAbsent] at h
    cases hc : soCmp (splitKey v) v.key (splitKey x) x.key <;> rw [hc] at h
    · cases h
      rw [listUnlink, soCmp_self]
    · cases h
    · cases hrec : listInsertIfAbsent xs v with
      | none => rw [hrec] at h; cases h
      | some l3 =>
        rw [hrec] at h
        cases h
        rw [listUnlink, hc, ih l3 hrec]
        rfl

theorem listUnlink_none_iff (l : List Val) (sk k : Nat) :
    listUnlink l sk k = none ↔ listFindNode l sk k = none := by
  induction l with
  | nil => simp [listUnlink, listFindNode]
  | cons x xs ih =>
    rw [listUnlink, listFindNode]
    cases h : soCmp sk k (splitKey x) x.key <;>
      simp [ih, Option.map_eq_none']

theorem listFindNode_key_mem (l : List Val) (sk k : Nat) (x : Val)
    (h : listFindNode l sk k = some x) : k = x.key ∧ x ∈ l := by
  induction l with
  | nil => cases h
  | cons y ys ih =>
    rw [listFindNode] at h
    cases hc : soCmp sk k (splitKey y) y.key <;> rw [hc] at h
    · cases h
    · cases h
      rw [soCmp_eq_iff] at hc
      exact ⟨hc.2, List.mem_cons_self _ _⟩
    · obtain ⟨hk, hm⟩ := ih h
      exact ⟨hk, List.mem_cons_of_mem _ hm⟩

theorem listUnlink_decomp (l : List Val) (sk k : Nat) (x : Val) (l2 : List Val)
    (h : listUnlink l sk k = some (x, l2)) :
    k = x.key ∧ ∃ p q, l = p ++ x :: q ∧ l2 = p ++ q := by
  induction l generalizing l2 with
  | nil => cases h
  | cons y ys ih =>
    rw [listUnlink] at h
    cases hc : soCmp sk k (splitKey y) y.key <;> rw [hc] at h
    · cases h
    · cases h
      rw [soCmp_eq_iff] at hc
      exact ⟨hc.2, [], ys, rfl, rfl⟩
    · cases hrec : listUnlink ys sk k with
      | none => rw [hrec] at h; cases h
      | some p =>
        rw [hrec] at h
        cases h
        obtain ⟨hk, pr, q, hys, hl2⟩ := ih p.2 (by rw [hrec])
        exact ⟨hk, y :: pr, q, by simp [hys], by simp [hl2]⟩

theorem listFindNode_none_of_key_notin (l : List Val) (sk k : Nat)
    (h : k ∉ l.map Val.key) : listFindNode l sk k = none := by
  induction l with
  | nil => rfl
  | cons y ys ih =>
    rw [List.map_cons, List.mem_cons] at h
    push_neg at h
    rw [listFindNode]
    cases hc : soCmp sk k (splitKey y) y.key
    · rfl
    · rw [soCmp_eq_iff] at hc
      exact absurd hc.2 h.1
    · exact ih h.2

theorem listInsertIfAbsent_length (l : List Val) (v : Val) (l2 : List Val)
    (h : listInsertIfAbsent l v = some l2) : l2.length = l.length + 1 := by
  induction l generalizing l2 with
  | nil => cases h; rfl
  | cons x xs ih =>
    rw [listInsertIfAbsent] at h
    cases hc : soCmp (splitKey v) v.key (splitKey x) x.key <;> rw [hc] at h
    · cases h; rfl
    · cases h
    · cases hrec : listInsertIfAbsent xs v with
      | none => rw [hrec] at h; cases h
      | some l3 =>
        rw [hrec] at h
        cases h
        simp [ih l3 hrec]

theorem listUnlink_length (l : List Val) (sk k : Nat) (x : Val) (l2 : List Val)
    (h : listUnlink l sk k = some (x, l2)) : l.length = l2.length + 1 := by
  obtain ⟨_, p, q, hl, hl2⟩ := listUnlink_decomp l sk k x l2 h
  subst hl; subst hl2
  simp only [List.length_append, List.length_cons]
  omega

theorem listEnsure_fst (f : Bool → Nat → Nat) (v : Val) (l : List Val) :
    (listEnsure f v l).1 = listFindNode l (splitKey v) v.key := by
  induction l with
  | nil => rfl
  | cons x xs ih =>
    rw [listEnsure, listFindNode]
    cases hc : soCmp (splitKey v) v.key (splitKey x) x.key <;> simp [ih]

set_option maxHeartbeats 1000000 in
theorem listEnsure_new_find (f : Bool → Nat → Nat) (v : Val) (l : List Val)
    (h : (listEnsure f v l).1 = none) :
    listFindNode (listEnsure f v l).2 (splitKey v) v.key
      = some ⟨v.key, f true v.data⟩ := by
  have hprobe : soCmp (splitKey v) v.key
      (splitKey ⟨v.key, f true v.data⟩) (⟨v.key, f true v.data⟩ : Val).key
      = Ordering.eq := by
    rw [soCmp_eq_iff]
    exact ⟨splitKey_eq_of_key _ _ rfl, rfl⟩
  induction l with
  | nil =>
    rw [listEnsure] at h ⊢
    rw [listFindNode, hprobe]
  | cons x xs ih =>
    cases hc : soCmp (splitKey v) v.key (splitKey x) x.key
    case lt =>
      have hE : listEnsure f v (x :: xs)
          = (none, ⟨v.key, f true v.data⟩ :: x :: xs) := by
        rw [listEnsure, hc]
      rw [hE]
      rw [listFindNode, hprobe]
    case eq =>
      have hE : listEnsure f v (x :: xs)
          = (some x, ⟨x.key, f false x.data⟩ :: xs) := by
        rw [listEnsure, hc]
      rw [hE] at h
      exact Option.noConfusion h
    case gt =>
      have hE : listEnsure f v (x :: xs)
          = ((listEnsure f v xs).1, x :: (listEnsure f v xs).2) := by
        rw [listEnsure, hc]
      rw [hE] at h ⊢
      rw [listFindNode, hc]
      exact ih h

end SplitListModel

namespace SplitListModel

theorem sortedSO_keys_nodup (l : List Val) (hs : SortedSO l) :
    (l.map Val.key).Nodup := by
  rw [List.Nodup, List.pairwise_map]
  refine hs.imp ?_
  intro a b hab
  rw [soCmp_lt_iff] at hab
  intro hk
  have hsk : splitKey a = splitKey b := splitKey_eq_of_key a b hk
  omega

theorem listFindNode_isSome_of_mem (l : List Val) (k : Nat) (hs : SortedSO l)
    (x : Val) (hx : x ∈ l) (hk : x.key = k) :
    (listFindNode l (searchKey k) k).isSome = true := by
  induction l with
  | nil => cases hx
  | cons y ys ih =>
    rw [SortedSO, List.pairwise_cons] at hs
    obtain ⟨hy, hys⟩ := hs
    rw [listFindNode]
    cases hc : soCmp (searchKey k) k (splitKey y) y.key
    case lt =>
      exfalso
      rcases List.mem_cons.mp hx with rfl | hxs
      · have h1 : searchKey k = splitKey x := by
          rw [← hk]; exact searchKey_key x
        rw [soCmp_lt_iff] at hc
        omega
      · have hlty := hy x hxs
        have h1 : searchKey k = splitKey x := by
          rw [← hk]; exact searchKey_key x
        rw [soCmp_lt_iff] at hc hlty
        omega
    case eq => rfl
    case gt =>
      rcases List.mem_cons.mp hx with rfl | hxs
      · exfalso
        have heq : soCmp (searchKey k) k (splitKey x) x.key = Ordering.eq := by
          rw [soCmp_probe_eq_iff]
          exact hk.symm
        rw [heq] at hc
        exact Ordering.noConfusion hc
      · exact ih (hys) hxs

theorem alloc_node_true (v : Val) : alloc_node true v = some v := rfl

theorem alloc_node_false (v : Val) : alloc_node false v = none := rfl

theorem insert_true_eq (s : SplitListState) (v : Val) :
    insert true s v = insert_node s v := rfl

theorem find_eq (s : SplitListState) (k : Nat) :
    find s k = (listFindNode s.items (searchKey k) k).isSome := rfl

theorem get_eq (s : SplitListState) (k : Nat) :
    get s k = listFindNode s.items (searchKey k) k := by
  unfold get base_get
  cases listFindNode s.items (searchKey k) k <;> rfl

theorem insert_node_cases (s : SplitListState) (v : Val) :
    (listInsertIfAbsent s.items v = none
      ∧ insert_node s v = ⟨false, s, [Effect.freeNode v]⟩)
    ∨ (∃ l, listInsertIfAbsent s.items v = some l
      ∧ insert_node s v = ⟨true, ⟨l, s.counter + 1⟩, []⟩) := by
  unfold insert_node base_insert
  cases hI : listInsertIfAbsent s.items v with
  | none => left; exact ⟨rfl, rfl⟩
  | some l => right; exact ⟨l, rfl, rfl⟩

theorem erase_cases (s : SplitListState) (k : Nat) :
    (listUnlink s.items (searchKey k) k = none ∧ erase s k = ⟨false, s, []⟩)
    ∨ (∃ x l, listUnlink s.items (searchKey k) k = some (x, l)
      ∧ erase s k
          = ⟨true, ⟨l, s.counter - 1⟩, [Effect.rcuSync, Effect.freeNode x]⟩) := by
  unfold erase base_erase
  cases hU : listUnlink s.items (searchKey k) k with
  | none => left; exact ⟨rfl, rfl⟩
  | some p =>
    obtain ⟨x, l⟩ := p
    right; exact ⟨x, l, rfl, rfl⟩

theorem extract_cases (s : SplitListState) (k : Nat) :
    (listUnlink s.items (searchKey k) k = none ∧ extract s k = ⟨none, s, []⟩)
    ∨ (∃ x l, listUnlink s.items (searchKey k) k = some (x, l)
      ∧ extract s k = ⟨some x, ⟨l, s.counter - 1⟩, []⟩) := by
  unfold extract base_extract
  cases hU : listUnlink s.items (searchKey k) k with
  | none => left; exact ⟨rfl, rfl⟩
  | some p =>
    obtain ⟨x, l⟩ := p
    right; exact ⟨x, l, rfl, rfl⟩

theorem ensure_true_base (s : SplitListState) (v : Val) (f : Bool → Nat → Nat) :
    ensure true s v f
      = (if (base_ensure s v f).1.1 && (base_ensure s v f).1.2 then
          ⟨(base_ensure s v f).1, (base_ensure s v f).2.1,
            (base_ensure s v f).2.2⟩
        else
          ⟨(base_ensure s v f).1, (base_ensure s v f).2.1,
            (base_ensure s v f).2.2 ++ [Effect.freeNode v]⟩) := rfl

theorem base_ensure_none (s : SplitListState) (v : Val) (f : Bool → Nat → Nat)
    (hE : (listEnsure f v s.items).1 = none) :
    base_ensure s v f
      = ((true, true), ⟨(listEnsure f v s.items).2, s.counter + 1⟩,
          [Effect.fnCall true v]) := by
  unfold base_ensure
  rw [hE]

theorem base_ensure_some (s : SplitListState) (v : Val) (f : Bool → Nat → Nat)
    (x : Val) (hE : (listEnsure f v s.items).1 = some x) :
    base_ensure s v f
      = ((true, false), ⟨(listEnsure f v s.items).2, s.counter⟩,
          [Effect.fnCall false x]) := by
  unfold base_ensure
  rw [hE]

theorem ensure_true_none (s : SplitListState) (v : Val) (f : Bool → Nat → Nat)
    (hE : (listEnsure f v s.items).1 = none) :
    ensure true s v f
      = ⟨(true, true), ⟨(listEnsure f v s.items).2, s.counter + 1⟩,
          [Effect.fnCall true v]⟩ := by
  rw [ensure_true_base, base_ensure_none s v f hE]
  rfl

theorem ensure_true_some (s : SplitListState) (v : Val) (f : Bool → Nat → Nat)
    (x : Val) (hE : (listEnsure f v s.items).1 = some x) :
    ensure true s v f
      = ⟨(true, false), ⟨(listEnsure f v s.items).2, s.counter⟩,
          [Effect.fnCall false x, Effect.freeNode v]⟩ := by
  rw [ensure_true_base, base_ensure_some s v f x hE]
  rfl

end SplitListModel

namespace SplitListModel

/-- After a successful facade insert of `v`, a find of `v.key` on the
resulting state reports found. -/
theorem insert_success_find (s : SplitListState) (v : Val)
    (h : (insert true s v).res = true) :
    find (insert true s v).state v.key = true := by
  rw [insert_true_eq] at h ⊢
  rcases insert_node_cases s v with ⟨hI, hE⟩ | ⟨l, hI, hE⟩
  · rw [hE] at h
    simp at h
  · rw [hE, find_eq]
    show (listFindNode l (searchKey v.key) v.key).isSome = true
    rw [searchKey_key, listInsertIfAbsent_find_self s.items v l hI]
    rfl

/-- A facade insert of a value whose key is already found fails,
returns the unchanged state, and frees the candidate node. -/
theorem insert_found_fail (s : SplitListState) (u : Val)
    (hf : find s u.key = true) :
    insert true s u = ⟨false, s, [Effect.freeNode u]⟩ := by
  rw [insert_true_eq]
  rcases insert_node_cases s u with ⟨hI, hE⟩ | ⟨l, hI, hE⟩
  · exact hE
  · exfalso
    rw [find_eq, searchKey_key] at hf
    have hnone := (listInsertIfAbsent_none_iff s.items u).mpr hf
    rw [hI] at hnone
    exact Option.noConfusion hnone

/-- Equation lemma: one step of `insertSeq`. -/
theorem insertSeq_cons (s : SplitListState) (v : Val) (vs : List Val) :
    insertSeq s (v :: vs)
      = ((insertSeq (insert true s v).state vs).1,
         ((insert true s v).res, (insert true s v).effects)
           :: (insertSeq (insert true s v).state vs).2) := rfl

/-- Inserting any sequence of values whose key is already found leaves
the state unchanged and every call returns false and frees its
candidate. -/
theorem insertSeq_all_dup (s1 : SplitListState) (kk : Nat)
    (hf : find s1 kk = true) (vs : List Val)
    (hk : ∀ u ∈ vs, u.key = kk) :
    insertSeq s1 vs
      = (s1, vs.map (fun u => ((false : Bool), [Effect.freeNode u]))) := by
  induction vs with
  | nil => rfl
  | cons u us ih =>
    have hu : u.key = kk := hk u (List.mem_cons_self u us)
    have hstep : insert true s1 u = ⟨false, s1, [Effect.freeNode u]⟩ := by
      apply insert_found_fail
      rw [hu]
      exact hf
    have hus : ∀ w ∈ us, w.key = kk :=
      fun w hw => hk w (List.mem_cons_of_mem u hw)
    rw [insertSeq_cons, hstep]
    simp [ih hus]

end SplitListModel

namespace SplitListModel

/-- In a list whose keys are pairwise distinct, removing an occurrence
of `x` leaves a list in which `x.key` no longer occurs. -/
theorem nodup_key_notin_rest (p q : List Val) (x : Val)
    (hnd : ((p ++ x :: q).map Val.key).Nodup) :
    x.key ∉ (p ++ q).map Val.key := by
  rw [List.map_append, List.map_cons, List.nodup_append] at hnd
  obtain ⟨_, hnd2, hdisj⟩ := hnd
  rw [List.nodup_cons] at hnd2
  rw [List.map_append]
  intro hmem
  rcases List.mem_append.mp hmem with hp | hq
  · exact hdisj hp (List.mem_cons_self _ _)
  · exact hnd2.1 hq

/-- Equation lemma: one insert step of `runOps`. -/
theorem runOps_cons_ins (s : SplitListState) (v : Val) (os : List SetOp) :
    runOps s (SetOp.insOp v :: os)
      = ((runOps (insert true s v).state os).1,
         (insert true s v).res :: (runOps (insert true s v).state os).2) := rfl

/-- Equation lemma: one erase step of `runOps`. -/
theorem runOps_cons_del (s : SplitListState) (k : Nat) (os : List SetOp) :
    runOps s (SetOp.delOp k :: os)
      = ((runOps (erase s k).state os).1,
         (erase s k).res :: (runOps (erase s k).state os).2) := rfl

/-- Counter bookkeeping along a fully successful sequential history:
each successful insert adds one, each successful erase removes one, and
the counter continues to agree with the number of stored items. -/
theorem runOps_counter (os : List SetOp) :
    ∀ s : SplitListState, s.counter = s.items.length →
      (∀ b ∈ (runOps s os).2, b = true) →
      (runOps s os).1.counter + countDel os = s.counter + countIns os
      ∧ (runOps s os).1.counter = (runOps s os).1.items.length := by
  induction os with
  | nil =>
    intro s hinv _
    exact ⟨rfl, hinv⟩
  | cons o os ih =>
    intro s hinv hall
    cases o with
    | insOp v =>
      rw [runOps_cons_ins] at hall ⊢
      rw [List.forall_mem_cons] at hall
      obtain ⟨hres, hrest⟩ := hall
      rw [insert_true_eq] at hres hrest ⊢
      rcases insert_node_cases s v with ⟨hI, hE⟩ | ⟨l, hI, hE⟩
      · rw [hE] at hres
        simp at hres
      · rw [hE] at hrest ⊢
        have hlen : l.length = s.items.length + 1 :=
          listInsertIfAbsent_length s.items v l hI
        have hinv2 : (⟨l, s.counter + 1⟩ : SplitListState).counter
            = (⟨l, s.counter + 1⟩ : SplitListState).items.length := by
          show s.counter + 1 = l.length
          omega
        have hrec := ih ⟨l, s.counter + 1⟩ hinv2 hrest
        rw [countIns, countDel]
        refine ⟨?_, hrec.2⟩
        have h1 : (runOps ⟨l, s.counter + 1⟩ os).1.counter + countDel os
            = (s.counter + 1) + countIns os := hrec.1
        show (runOps ⟨l, s.counter + 1⟩ os).1.counter + countDel os
          = s.counter + (countIns os + 1)
        omega
    | delOp k =>
      rw [runOps_cons_del] at hall ⊢
      rw [List.forall_mem_cons] at hall
      obtain ⟨hres, hrest⟩ := hall
      rcases erase_cases s k with ⟨hU, hE⟩ | ⟨x, l, hU, hE⟩
      · rw [hE] at hres
        simp at hres
      · rw [hE] at hrest ⊢
        have hlen : s.items.length = l.length + 1 :=
          listUnlink_length s.items (searchKey k) k x l hU
        have hinv2 : (⟨l, s.counter - 1⟩ : SplitListState).counter
            = (⟨l, s.counter - 1⟩ : SplitListState).items.length := by
          show s.counter - 1 = l.length
          omega
        have hrec := ih ⟨l, s.counter - 1⟩ hinv2 hrest
        rw [countIns, countDel]
        refine ⟨?_, hrec.2⟩
        have h1 : (runOps ⟨l, s.counter - 1⟩ os).1.counter + countDel os
            = (s.counter - 1) + countIns os := hrec.1
        show (runOps ⟨l, s.counter - 1⟩ os).1.counter + (countDel os + 1)
          = s.counter + countIns os
        omega

end SplitListModel

namespace SplitListModel

/-- Claim C1: for every key, a successful `insert` of a value followed
immediately on the same thread by `find` of the same key, with no erase
of that key between the two calls, returns found (`true`). -/
theorem insert_then_find (s : SplitListState) (v : Val)
    (h : (insert true s v).res = true) :
    find (insert true s v).state v.key = true :=
  insert_success_find s v h

/-- Witness for C1 at the concrete input: insert value `⟨5, 7⟩` into a
fresh set, then find key `5`. -/
theorem insert_then_find_witness :
    (insert true initState ⟨5, 7⟩).res = true
    ∧ find (insert true initState ⟨5, 7⟩).state 5 = true :=
  ⟨by decide, insert_then_find initState ⟨5, 7⟩ (by decide)⟩

/-- Claim C4: after one successful insert of a key, every further
insert of a value with the same key (with no interleaving erase of that
key) returns false, frees the candidate node allocated for that call,
and leaves the set's contents unchanged; the duplicate outcome is a
normal result, not an error. -/
theorem insert_duplicate (s : SplitListState) (v : Val)
    (h : (insert true s v).res = true) (vs : List Val)
    (hk : ∀ u ∈ vs, u.key = v.key) :
    insertSeq (insert true s v).state vs
      = ((insert true s v).state,
         vs.map (fun u => ((false : Bool), [Effect.freeNode u]))) :=
  insertSeq_all_dup (insert true s v).state v.key
    (insert_success_find s v h) vs hk

/-- Witness for C4 at the concrete input: insert `⟨5, 7⟩` into a fresh
set, then try to insert `⟨5, 8⟩` and `⟨5, 9⟩` (same key 5). -/
theorem insert_duplicate_witness :
    (insert true initState ⟨5, 7⟩).res = true
    ∧ (∀ u ∈ ([⟨5, 8⟩, ⟨5, 9⟩] : List Val), u.key = 5)
    ∧ insertSeq (insert true initState ⟨5, 7⟩).state [⟨5, 8⟩, ⟨5, 9⟩]
        = ((insert true initState ⟨5, 7⟩).state,
           [((false : Bool), [Effect.freeNode ⟨5, 8⟩]),
            ((false : Bool), [Effect.freeNode ⟨5, 9⟩])]) :=
  ⟨by decide, by decide,
    insert_duplicate initState ⟨5, 7⟩ (by decide) [⟨5, 8⟩, ⟨5, 9⟩] (by decide)⟩

/-- Claim C5: an erase of key `k` performed after a successful insert
of a value with key `k`, with no concurrent interference, returns true
and removes the item; a subsequent find of `k` returns not-found. -/
theorem erase_after_insert (s : SplitListState) (v : Val)
    (h : (insert true s v).res = true) :
    (erase (insert true s v).state v.key).res = true
    ∧ find (erase (insert true s v).state v.key).state v.key = false := by
  rw [insert_true_eq] at h ⊢
  rcases insert_node_cases s v with ⟨hI, hE⟩ | ⟨l, hI, hE⟩
  · rw [hE] at h
    simp at h
  · rw [hE]
    have hU : listUnlink l (searchKey v.key) v.key = some (v, s.items) := by
      rw [searchKey_key]
      exact listInsertIfAbsent_unlink_self s.items v l hI
    rcases erase_cases ⟨l, s.counter + 1⟩ v.key with ⟨hU2, hE2⟩ | ⟨x, l2, hU2, hE2⟩
    · simp only at hU2
      rw [hU] at hU2
      exact Option.noConfusion hU2
    · simp only at hU2
      rw [hU] at hU2
      have hx : v = x ∧ s.items = l2 := by
        have := Option.some.inj hU2
        exact ⟨congrArg Prod.fst this, congrArg Prod.snd this⟩
      obtain ⟨rfl, rfl⟩ := hx
      rw [hE2]
      refine ⟨rfl, ?_⟩
      rw [find_eq]
      show (listFindNode s.items (searchKey v.key) v.key).isSome = false
      rw [searchKey_key]
      cases hb : (listFindNode s.items (splitKey v) v.key).isSome with
      | false => rfl
      | true =>
        have hnone := (listInsertIfAbsent_none_iff s.items v).mpr hb
        rw [hI] at hnone
        exact Option.noConfusion hnone

/-- Witness for C5 at the concrete input: insert `⟨5, 7⟩` into a fresh
set, erase key `5`, then find key `5`. -/
theorem erase_after_insert_witness :
    (insert true initState ⟨5, 7⟩).res = true
    ∧ (erase (insert true initState ⟨5, 7⟩).state 5).res = true
    ∧ find (erase (insert true initState ⟨5, 7⟩).state 5).state 5 = false :=
  ⟨by decide, (erase_after_insert initState ⟨5, 7⟩ (by decide)).1,
    (erase_after_insert initState ⟨5, 7⟩ (by decide)).2⟩

/-- Claim C7: when node allocation fails during insert, emplace or
ensure, the failure surfaces to the caller as an explicit failure
result, nothing was left allocated (so nothing leaks), and no partial
structural mutation of the set remains — the state is unchanged and no
effects are produced. -/
theorem alloc_failure_clean (s : SplitListState) (v : Val)
    (f : Bool → Nat → Nat) :
    insert false s v = ⟨false, s, []⟩
    ∧ emplace false s v = ⟨false, s, []⟩
    ∧ ensure false s v f = ⟨(false, false), s, []⟩ :=
  ⟨rfl, rfl, rfl⟩

/-- Claim C9: `insert(v)` and `emplace(v)` allocate a node holding `v`
through the same allocator and hand it to the same `insert_node` path,
so they return the same Boolean and leave the set in the same state. -/
theorem insert_emplace_agree (alloc : Bool) (s : SplitListState) (v : Val) :
    insert alloc s v = emplace alloc s v := rfl

/-- Claim C10: `get(k)` returns a non-null pointer iff `find(k)`
returns true; when non-null, the pointer addresses the stored value of
an item of the set whose key equals `k`; when `k` is absent, `get(k)`
returns `nullptr`. -/
theorem get_iff_find (s : SplitListState) (k : Nat) :
    ((get s k).isSome = find s k)
    ∧ (∀ x, get s k = some x → x.key = k ∧ x ∈ s.items)
    ∧ (find s k = false → get s k = none) := by
  refine ⟨?_, ?_, ?_⟩
  · rw [get_eq, find_eq]
  · intro x hx
    rw [get_eq] at hx
    obtain ⟨h1, h2⟩ := listFindNode_key_mem s.items (searchKey k) k x hx
    exact ⟨h1.symm, h2⟩
  · intro hf
    rw [find_eq] at hf
    rw [get_eq]
    cases hg : listFindNode s.items (searchKey k) k with
    | none => rfl
    | some y =>
      rw [hg] at hf
      simp at hf

/-- Witness for C10 at concrete inputs: a set holding `⟨5, 7⟩`, probed
with the present key `5` and the absent key `6`. -/
theorem get_iff_find_witness :
    ((get ⟨[⟨5, 7⟩], 1⟩ 5).isSome = find ⟨[⟨5, 7⟩], 1⟩ 5)
    ∧ (Val.key ⟨5, 7⟩ = 5 ∧ (⟨5, 7⟩ : Val) ∈ ([⟨5, 7⟩] : List Val))
    ∧ (find ⟨[⟨5, 7⟩], 1⟩ 6 = false ∧ get ⟨[⟨5, 7⟩], 1⟩ 6 = none) :=
  ⟨(get_iff_find ⟨[⟨5, 7⟩], 1⟩ 5).1,
   (get_iff_find ⟨[⟨5, 7⟩], 1⟩ 5).2.1 ⟨5, 7⟩ (by decide),
   by decide,
   (get_iff_find ⟨[⟨5, 7⟩], 1⟩ 6).2.2 (by decide)⟩

end SplitListModel

namespace SplitListModel

/-- Claim C2: `ensure(v, fn)` has exactly-once semantics: if no item
with `v`'s key exists, a new item is inserted and `fn` runs once with
`isNew = true` on it; if an item exists, `fn` runs once with
`isNew = false` on the existing item and the candidate node is freed;
the call returns `(success, wasNew)`, and `success` is false only on
resource exhaustion. -/
theorem ensure_exactly_once (s : SplitListState) (v : Val)
    (f : Bool → Nat → Nat) :
    (ensure false s v f).res = (false, false)
    ∧ (ensure true s v f).res.1 = true
    ∧ (find s v.key = false →
        (ensure true s v f).res = (true, true)
        ∧ (ensure true s v f).effects = [Effect.fnCall true v]
        ∧ find (ensure true s v f).state v.key = true)
    ∧ (∀ x, get s v.key = some x →
        (ensure true s v f).res = (true, false)
        ∧ (ensure true s v f).effects
            = [Effect.fnCall false x, Effect.freeNode v]) := by
  have hfst := listEnsure_fst f v s.items
  refine ⟨rfl, ?_, ?_, ?_⟩
  · cases hE : (listEnsure f v s.items).1 with
    | none => simp [ensure_true_none s v f hE]
    | some x => simp [ensure_true_some s v f x hE]
  · intro hf
    rw [find_eq, searchKey_key] at hf
    have hE : (listEnsure f v s.items).1 = none := by
      rw [hfst]
      cases hg : listFindNode s.items (splitKey v) v.key with
      | none => rfl
      | some y =>
        rw [hg] at hf
        simp at hf
    rw [ensure_true_none s v f hE]
    refine ⟨rfl, rfl, ?_⟩
    rw [find_eq]
    show (listFindNode (listEnsure f v s.items).2
      (searchKey v.key) v.key).isSome = true
    rw [searchKey_key, listEnsure_new_find f v s.items hE]
    rfl
  · intro x hget
    rw [get_eq, searchKey_key] at hget
    have hE : (listEnsure f v s.items).1 = some x := by
      rw [hfst]
      exact hget
    rw [ensure_true_some s v f x hE]
    exact ⟨rfl, rfl⟩

/-- Witness for C2 at concrete inputs: ensure of key 5 on a fresh set
(new case) and on a set already holding `⟨5, 7⟩` (existing case). -/
theorem ensure_exactly_once_witness :
    (find initState 5 = false
      ∧ (ensure true initState ⟨5, 7⟩ (fun _ d => d + 1)).res = (true, true))
    ∧ (get ⟨[⟨5, 7⟩], 1⟩ 5 = some ⟨5, 7⟩
      ∧ (ensure true ⟨[⟨5, 7⟩], 1⟩ ⟨5, 9⟩ (fun _ d => d + 1)).effects
          = [Effect.fnCall false ⟨5, 7⟩, Effect.freeNode ⟨5, 9⟩]) :=
  ⟨⟨by decide,
    ((ensure_exactly_once initState ⟨5, 7⟩ (fun _ d => d + 1)).2.2.1
      (by decide)).1⟩,
   ⟨by decide,
    ((ensure_exactly_once ⟨[⟨5, 7⟩], 1⟩ ⟨5, 9⟩ (fun _ d => d + 1)).2.2.2
      ⟨5, 7⟩ (by decide)).2⟩⟩

/-- Claim C3: `extract(k)` returns an empty exempt pointer when no item
with key `k` is in the set; otherwise it unlinks the item — without
freeing it and without performing RCU synchronisation itself — and
returns a non-empty exempt pointer holding it, after which `find(k)`
returns not-found; not-found is an empty result, never an
exception-like signal. -/
theorem extract_unlinks_without_free (s : SplitListState) (k : Nat)
    (hs : SortedSO s.items) :
    (extract s k).effects = []
    ∧ ((∀ x ∈ s.items, x.key ≠ k) → extract s k = ⟨none, s, []⟩)
    ∧ ((∃ x ∈ s.items, x.key = k) → (extract s k).res.isSome = true)
    ∧ (∀ x, (extract s k).res = some x →
        x.key = k ∧ x ∈ s.items ∧ find (extract s k).state k = false)
    ∧ ((extract s k).res.isSome = find s k) := by
  rcases extract_cases s k with ⟨hU, hE⟩ | ⟨x0, l, hU, hE⟩
  case inl =>
    have hfn : listFindNode s.items (searchKey k) k = none :=
      (listUnlink_none_iff s.items (searchKey k) k).mp hU
    refine ⟨by rw [hE], fun _ => hE, ?_, ?_, ?_⟩
    · rintro ⟨x, hx, hk⟩
      have hsome := listFindNode_isSome_of_mem s.items k hs x hx hk
      rw [hfn] at hsome
      simp at hsome
    · intro x hx
      rw [hE] at hx
      simp at hx
    · rw [hE, find_eq, hfn]
  case inr =>
    obtain ⟨hk0, p, q, hitems, hl⟩ :=
      listUnlink_decomp s.items (searchKey k) k x0 l hU
    have hmem : x0 ∈ s.items := by
      rw [hitems]
      exact List.mem_append.mpr (Or.inr (List.mem_cons_self x0 q))
    refine ⟨by rw [hE], ?_, ?_, ?_, ?_⟩
    · intro habs
      exact absurd hk0.symm (habs x0 hmem)
    · intro _
      rw [hE]
      rfl
    · intro x hx
      rw [hE] at hx
      have hx0 : x0 = x := Option.some.inj hx
      subst hx0
      refine ⟨hk0.symm, hmem, ?_⟩
      rw [hE, find_eq]
      show (listFindNode l (searchKey k) k).isSome = false
      have hnd := sortedSO_keys_nodup s.items hs
      rw [hitems] at hnd
      have hnotin : k ∉ (p ++ q).map Val.key := by
        rw [hk0]
        exact nodup_key_notin_rest p q x0 hnd
      rw [hl, listFindNode_none_of_key_notin (p ++ q) (searchKey k) k hnotin]
      rfl
    · rw [hE, find_eq]
      cases hg : listFindNode s.items (searchKey k) k with
      | none =>
        have hcontra := (listUnlink_none_iff s.items (searchKey k) k).mpr hg
        rw [hU] at hcontra
        exact Option.noConfusion hcontra
      | some y => rfl

/-- Witness for C3 at the concrete input: a sorted set holding `⟨5, 7⟩`
probed with the present key 5. -/
theorem extract_unlinks_without_free_witness :
    SortedSO ([⟨5, 7⟩] : List Val)
    ∧ (extract ⟨[⟨5, 7⟩], 1⟩ 5).effects = []
    ∧ (Val.key ⟨5, 7⟩ = 5 ∧ (⟨5, 7⟩ : Val) ∈ ([⟨5, 7⟩] : List Val)
        ∧ find (extract ⟨[⟨5, 7⟩], 1⟩ 5).state 5 = false) :=
  ⟨by decide,
   (extract_unlinks_without_free ⟨[⟨5, 7⟩], 1⟩ 5 (by decide)).1,
   (extract_unlinks_without_free ⟨[⟨5, 7⟩], 1⟩ 5 (by decide)).2.2.2.1
     ⟨5, 7⟩ (by decide)⟩

/-- Claim C6: for every sequential history of N successful inserts and
M successful erases starting from a freshly constructed set, `size()`
returns exactly N − M. -/
theorem size_after_history (os : List SetOp)
    (h : ∀ b ∈ (runOps initState os).2, b = true) :
    ((size (runOps initState os).1 : Nat) : Int)
      = (countIns os : Int) - (countDel os : Int) := by
  have hrec := runOps_counter os initState rfl h
  have h1 : (runOps initState os).1.counter + countDel os
      = 0 + countIns os := hrec.1
  unfold size
  omega

/-- Witness for C6 at the concrete history: two successful inserts and
one successful erase; the size is 2 − 1 = 1. -/
theorem size_after_history_witness :
    (∀ b ∈ (runOps initState
        [SetOp.insOp ⟨1, 0⟩, SetOp.insOp ⟨2, 0⟩, SetOp.delOp 1]).2, b = true)
    ∧ ((size (runOps initState
        [SetOp.insOp ⟨1, 0⟩, SetOp.insOp ⟨2, 0⟩, SetOp.delOp 1]).1 : Nat) : Int)
        = (2 : Int) - (1 : Int) :=
  ⟨by decide,
   size_after_history [SetOp.insOp ⟨1, 0⟩, SetOp.insOp ⟨2, 0⟩, SetOp.delOp 1]
     (by decide)⟩

end SplitListModel

/-- Claim C8: `regular_key(h)` is the bit-reversal of `h` with bit 0
set, so every regular key is odd; `sentinel_key(i)` is the bit-reversal
of `i` with bit 0 left 0, so every (valid) sentinel key is even; and
`sentinel_key(i)` is less than `regular_key(h)` for every `h` whose
hash maps to bucket `i` (at capacity `2^k`, which also covers every
refinement of `i`), under the comparator that compares the split-order
key first. -/
theorem sentinel_before_regular (w k i h uk1 uk2 : Nat) (hkw : k < w)
    (hik : i < 2 ^ k) (hmap : bucket_for h (2 ^ k) = i) :
    regular_key w h % 2 = 1
    ∧ sentinel_key w i % 2 = 0
    ∧ sentinel_key w i < regular_key w h
    ∧ soCmp (sentinel_key w i) uk1 (regular_key w h) uk2 = Ordering.lt := by
  have hmap2 : h % 2 ^ k = i := hmap
  have hodd : regular_key w h % 2 = 1 := setBit0_odd _
  have hle : sentinel_key w i ≤ reverseBits w h :=
    sentinel_key_le_reverse w k i h (by omega) hik hmap2
  have hsent : sentinel_key w i = reverseBits k i * 2 ^ (w - k) := by
    unfold sentinel_key
    have hsp := reverseBits_split k w i 0 (by omega) hik
    simpa [reverseBits_zero] using hsp
  have heven : sentinel_key w i % 2 = 0 := by
    have hpw : (2 : Nat) ^ (w - k) = 2 * 2 ^ (w - k - 1) := by
      rw [← pow_succ']
      congr 1
      omega
    have hform : sentinel_key w i
        = 2 * (reverseBits k i * 2 ^ (w - k - 1)) := by
      rw [hsent, hpw]
      ring
    omega
  have hreg : regular_key w h = setBit0 (reverseBits w h) := rfl
  have hle2 : reverseBits w h ≤ regular_key w h := by
    rw [hreg]
    exact le_setBit0 _
  have hlt : sentinel_key w i < regular_key w h := by omega
  refine ⟨hodd, heven, hlt, ?_⟩
  unfold soCmp
  have hcmp : compare (sentinel_key w i) (regular_key w h) = Ordering.lt :=
    compare_lt_iff_lt.mpr hlt
  rw [hcmp]

/-- Witness for C8 at the concrete input: width 8, capacity 4, bucket 3,
hash 7 (7 mod 4 = 3), with arbitrary user keys 0 and 9. -/
theorem sentinel_before_regular_witness :
    ((2 : Nat) < 8 ∧ (3 : Nat) < 2 ^ 2 ∧ bucket_for 7 (2 ^ 2) = 3)
    ∧ (regular_key 8 7 % 2 = 1
       ∧ sentinel_key 8 3 % 2 = 0
       ∧ sentinel_key 8 3 < regular_key 8 7
       ∧ soCmp (sentinel_key 8 3) 0 (regular_key 8 7) 9 = Ordering.lt) :=
  ⟨by decide, sentinel_before_regular 8 2 3 7 0 9 (by decide) (by decide)
    (by decide)⟩
